import Mathlib

/-!
The mcbot pathing classes `Plan`, `PlanningNode`, `PriorityQueue`
(src/mcbot/Pathing.h) and the tick loop of `GameClient::run`
(src/mcbot/GameClient.cpp).

Shallow embedding of the classes of `ai::path` and the properties of their
cursor, cost and heap operations, and of the tick catch-up arithmetic.

Conventions of the embedding.

* A `Node*` that the code only stores and hands back (the elements of a
  `Plan`) is a `NodePtr`: `some a` is the address `a`, `none` is `nullptr`.
* A pointer that the code dereferences without a test (`this`, `m_Node`,
  `m_Goal`, the elements of the open set) is the address of a live object, a
  `Nat`; objects live in a `Memory`.
* `std::vector<T>` is a `List T`; a `std::vector<T>::iterator` into `m_Path`
  is its offset from `m_Path.begin()`, so `m_Path.end()` is `m_Path.length`.
* `float` is a type parameter `F` with the operations the code uses.
* An operation with undefined behaviour in C++ returns `Except.error` with the
  `Fault` that the code commits.
-/

namespace ai.path

/-! ## Plan -/

/-- A `Node*` held in a container: `none` is `nullptr`. -/
abbrev NodePtr := Option Nat

/-- The ways an operation leaves defined behaviour. -/
inductive Fault where
  /-- Dereferencing an iterator that is not inside `[begin, end)`. -/
  | outOfBoundsRead
  /-- Calling `front()` on an empty container. -/
  | emptyFront
deriving DecidableEq, Repr

/-- Class `Plan`: the path and the iterator into it, as an offset from
`m_Path.begin()`. In C++ a `push_back` may invalidate `m_Iterator`; the offset
is then kept as it is, and every property below that uses the cursor after an
`AddNode` first calls `Reset()`, which assigns the iterator afresh. -/
structure Plan where
  m_Path : List NodePtr
  m_Iterator : Nat
deriving DecidableEq, Repr

namespace Plan

/-- Constructor `Plan()`: empty path, `m_Iterator = m_Path.end()`. -/
def ctor : Plan := { m_Path := [], m_Iterator := ([] : List NodePtr).length }

/-- Method `HasNext`: `m_Iterator != m_Path.end()`. -/
def HasNext (p : Plan) : Bool := p.m_Iterator != p.m_Path.length

/-- Method `Reset`: `m_Iterator = m_Path.begin()`. -/
def Reset (p : Plan) : Plan := { p with m_Iterator := 0 }

/-- Dereference `*m_Iterator`; reading outside the path is a fault. -/
def deref (p : Plan) : Except Fault NodePtr :=
  match p.m_Path[p.m_Iterator]? with
  | some n => .ok n
  | none => .error .outOfBoundsRead

/-- Method `GetCurrent`: `nullptr` at the end, else `*m_Iterator`. -/
def GetCurrent (p : Plan) : Except Fault NodePtr :=
  if p.m_Iterator == p.m_Path.length then .ok none else p.deref

/-- Method `GetGoal`: `nullptr` on an empty path, else `m_Path.back()`. -/
def GetGoal (p : Plan) : NodePtr :=
  if p.m_Path.isEmpty then none else p.m_Path.getLastD none

/-- Method `Next`: `result = *m_Iterator; ++m_Iterator; return result`, with no
test against `m_Path.end()`. -/
def Next (p : Plan) : Except Fault (NodePtr × Plan) :=
  match p.deref with
  | .ok result => .ok (result, { p with m_Iterator := p.m_Iterator + 1 })
  | .error e => .error e

/-- Method `AddNode`: `m_Path.push_back(node)`. -/
def AddNode (p : Plan) (node : NodePtr) : Plan := { p with m_Path := p.m_Path ++ [node] }

/-- The calls `AddNode(n1); ...; AddNode(nN)` on a plan, in order. -/
def addNodes (p : Plan) (ns : List NodePtr) : Plan := ns.foldl AddNode p

/-- A new `Plan()` followed by `AddNode(n1); ...; AddNode(nN); Reset()`. -/
def build (ns : List NodePtr) : Plan := (addNodes Plan.ctor ns).Reset

/-- Run `k` consecutive `Next()` calls: the nodes returned, in order, and the plan
afterwards; the first fault stops the run. -/
def NextN : Nat → Plan → Except Fault (List NodePtr × Plan)
  | 0, p => .ok ([], p)
  | k + 1, p =>
    match p.Next with
    | .ok (r, p1) =>
      match NextN k p1 with
      | .ok (rs, p2) => .ok (r :: rs, p2)
      | .error e => .error e
    | .error e => .error e

end Plan

/-! ## Node and PlanningNode -/

/-- Modelled from the spec: `Vector3i` is declared in mclib, which src/ does not
hold; the spec calls it an integer 3D position. -/
structure Vector3i where
  x : Int
  y : Int
  z : Int
deriving DecidableEq, Repr

/-- Modelled from the spec: the difference of two integer positions
(`operator-` of mclib), taken coordinate by coordinate. -/
def Vector3i.sub (a b : Vector3i) : Vector3i :=
  { x := a.x - b.x, y := a.y - b.y, z := a.z - b.z }

/-- Class `Node`: its position and the addresses of its edges. -/
structure Node where
  m_Position : Vector3i
  m_Edges : List Nat
deriving DecidableEq, Repr

/-- Class `PlanningNode`. `m_Prev` is tested against null by the code, so it is
an optional address; `m_Node` and `m_Goal` are dereferenced untested. -/
structure PlanningNode (F : Type) where
  m_Prev : Option Nat
  m_Node : Nat
  m_Goal : Nat
  m_GoalCost : F
  m_HeuristicCost : F
  m_FitnessCost : F
  m_Closed : Bool
deriving DecidableEq, Repr

/-- The objects that pointers refer to: nodes and planning nodes by address. -/
structure Memory (F : Type) where
  nodes : Nat → Node
  planning : Nat → PlanningNode F

/-- The functions `SetPrevious` calls whose bodies src/ does not hold, taken as
parameters: `Length v` is `(float) v.Length()` of mclib, and
`GetCostFrom self other` is `self->GetCostFrom(other)` of Pathing.cpp for two
node pointers. -/
structure Externals (F : Type) where
  Length : Vector3i → F
  GetCostFrom : Nat → NodePtr → F

/-- Store a planning node at an address. -/
def Memory.write {F : Type} (M : Memory F) (a : Nat) (v : PlanningNode F) : Memory F :=
  { M with planning := fun b => if b = a then v else M.planning b }

/-- Method `Node::GetPosition`. -/
def Node.GetPosition {F : Type} (M : Memory F) (self : Nat) : Vector3i :=
  (M.nodes self).m_Position

namespace PlanningNode

variable {F : Type}

/-- Method `GetPrevious`. -/
def GetPrevious (M : Memory F) (self : Nat) : Option Nat := (M.planning self).m_Prev

/-- Method `GetNode`. -/
def GetNode (M : Memory F) (self : Nat) : NodePtr := some (M.planning self).m_Node

/-- Method `GetGoalCost`. -/
def GetGoalCost (M : Memory F) (self : Nat) : F := (M.planning self).m_GoalCost

/-- Method `GetHeuristicCost`. -/
def GetHeuristicCost (M : Memory F) (self : Nat) : F := (M.planning self).m_HeuristicCost

/-- Method `GetFitnessCost`. -/
def GetFitnessCost (M : Memory F) (self : Nat) : F := (M.planning self).m_FitnessCost

/-- Method `IsClosed`. -/
def IsClosed (M : Memory F) (self : Nat) : Bool := (M.planning self).m_Closed

/-- Method `SetClosed`: `m_Closed = closed`. -/
def SetClosed (M : Memory F) (self : Nat) (closed : Bool) : Memory F :=
  M.write self { M.planning self with m_Closed := closed }

/-- Method `SetPrevious`, statement by statement: store `m_Prev`; set
`m_GoalCost` from the previous planning node or to 0; recompute
`m_HeuristicCost`; set `m_FitnessCost` to the sum of the two. Each statement
reads the memory left by the one before, so `previous == this` is covered. -/
def SetPrevious [Add F] [Zero F] (E : Externals F) (M : Memory F) (self : Nat)
    (previous : Option Nat) : Memory F :=
  let M1 := M.write self { M.planning self with m_Prev := previous }
  let goalCost : F :=
    match (M1.planning self).m_Prev with
    | some prev =>
      GetGoalCost M1 prev + E.GetCostFrom (M1.planning self).m_Node (GetNode M1 prev)
    | none => 0
  let M2 := M1.write self { M1.planning self with m_GoalCost := goalCost }
  let heuristic : F :=
    E.Length (Vector3i.sub (Node.GetPosition M2 (M2.planning self).m_Node)
      (Node.GetPosition M2 (M2.planning self).m_Goal))
  let M3 := M2.write self { M2.planning self with m_HeuristicCost := heuristic }
  M3.write self { M3.planning self with
    m_FitnessCost := (M3.planning self).m_GoalCost + (M3.planning self).m_HeuristicCost }

/-- Method `IsBetterThan`: `m_FitnessCost < other->GetFitnessCost()`. -/
def IsBetterThan [LT F] [DecidableRel (fun a b : F => a < b)] (M : Memory F)
    (self other : Nat) : Bool :=
  decide ((M.planning self).m_FitnessCost < GetFitnessCost M other)

end PlanningNode

/-- Functor `PlanningNodeComparator`: `!first->IsBetterThan(second)`, read in
the memory of the moment of the call. -/
def PlanningNodeComparator {F : Type} [LT F] [DecidableRel (fun a b : F => a < b)]
    (M : Memory F) (first second : Nat) : Bool :=
  !PlanningNode.IsBetterThan M first second

/-! ## Heap algorithms of the standard library -/

section Heap

variable {T : Type}

/-- Modelled from the spec: `std::push_heap` is the C++ standard library's, not
in src/; spec 4.4 has `Push` append and then sift up. The element at `i` is
exchanged with its parent `(i - 1) / 2` as long as `comp parent element`
holds. The first argument bounds the number of steps; `i` steps suffice. -/
def siftUp (comp : T → T → Bool) : Nat → List T → Nat → List T
  | 0, l, _ => l
  | fuel + 1, l, i =>
    if i = 0 then l
    else
      match l[(i - 1) / 2]?, l[i]? with
      | some a, some b =>
        if comp a b then siftUp comp fuel ((l.set ((i - 1) / 2) b).set i a) ((i - 1) / 2)
        else l
      | _, _ => l

/-- Modelled from the spec: `std::push_heap(first, last, comp)`, which sifts
the last element of the range up. -/
def push_heap (comp : T → T → Bool) (l : List T) : List T :=
  siftUp comp l.length l (l.length - 1)

/-- Modelled from the spec: the choice of the child to compare with in a
sift-down over the first `len` elements: the left child `2 * i + 1`, or the
right child `2 * i + 2` when it is inside the heap and `comp left right` holds. -/
def pickChild (comp : T → T → Bool) (len : Nat) (l : List T) (i : Nat) : Nat :=
  match l[2 * i + 1]?, l[2 * i + 2]? with
  | some a, some b => if 2 * i + 2 < len && comp a b then 2 * i + 2 else 2 * i + 1
  | _, _ => 2 * i + 1

/-- Modelled from the spec: the sift-down of the standard heap algorithms
(spec 4.4: "swaps with the last, shrinks, sifts down"), on the heap formed by
the first `len` elements. The element at `i` is exchanged with the child chosen
by `pickChild` as long as `comp element child` holds. The first argument bounds
the number of steps; `len - i` steps suffice. -/
def siftDown (comp : T → T → Bool) (len : Nat) : Nat → List T → Nat → List T
  | 0, l, _ => l
  | fuel + 1, l, i =>
    if 2 * i + 1 < len then
      match l[i]?, l[pickChild comp len l i]? with
      | some a, some b =>
        if comp a b then
          siftDown comp len fuel ((l.set i b).set (pickChild comp len l i) a)
            (pickChild comp len l i)
        else l
      | _, _ => l
    else l

/-- Modelled from the spec: `std::pop_heap(first, last, comp)`: exchange the
first element with the last and sift the new first element down in the range
shortened by one. -/
def pop_heap (comp : T → T → Bool) (l : List T) : List T :=
  if l.length ≤ 1 then l
  else
    match l[0]?, l[l.length - 1]? with
    | some a, some b =>
      siftDown comp (l.length - 1) (l.length - 1) ((l.set 0 b).set (l.length - 1) a) 0
    | _, _ => l

/-- Sift down at `parent`, then at `parent - 1`, and so on down to 0. -/
def heapifyFrom (comp : T → T → Bool) : Nat → List T → List T
  | 0, l => siftDown comp l.length l.length l 0
  | parent + 1, l => heapifyFrom comp parent (siftDown comp l.length l.length l (parent + 1))

/-- Modelled from the spec: `std::make_heap(first, last, comp)` (spec 4.4:
"full re-heapify"): sift down at every index that has a child, from the last
such index to the root. -/
def make_heap (comp : T → T → Bool) (l : List T) : List T :=
  if l.length < 2 then l else heapifyFrom comp ((l.length - 2) / 2) l

end Heap

/-! ## PriorityQueue -/

/-- Class template `PriorityQueue<T, Compare, std::vector<T>>`. The comparator
object `m_Comp` has no state of its own; what it answers is passed to each
operation as `comp`, since `PlanningNodeComparator` reads the planning nodes
through the pointers at the time of the call. -/
structure PriorityQueue (T : Type) where
  m_Container : List T
deriving DecidableEq, Repr

namespace PriorityQueue

variable {T : Type}

/-- A queue just constructed: an empty container. -/
def ctor : PriorityQueue T := { m_Container := [] }

/-- Method `Push`: `push_back`, then `std::push_heap`. -/
def Push (comp : T → T → Bool) (q : PriorityQueue T) (item : T) : PriorityQueue T :=
  { m_Container := push_heap comp (q.m_Container ++ [item]) }

/-- Method `Pop`: `item = front()`, `std::pop_heap`, `pop_back`, return `item`.
On an empty container `front()` is a fault. -/
def Pop (comp : T → T → Bool) (q : PriorityQueue T) : Except Fault (T × PriorityQueue T) :=
  match q.m_Container.head? with
  | none => .error .emptyFront
  | some item => .ok (item, { m_Container := (pop_heap comp q.m_Container).dropLast })

/-- Method `Update`: `std::make_heap` over the container. -/
def Update (comp : T → T → Bool) (q : PriorityQueue T) : PriorityQueue T :=
  { m_Container := make_heap comp q.m_Container }

/-- Method `Empty`. -/
def Empty (q : PriorityQueue T) : Bool := q.m_Container.isEmpty

end PriorityQueue

/-- A call on a queue: `Push(item)` or `Pop()`. -/
inductive QueueOp (T : Type) where
  | push (item : T)
  | pop
deriving DecidableEq, Repr

/-- Run a sequence of calls on a queue: the items the `Pop` calls returned, in
order, and the queue afterwards; a `Pop` on an empty queue stops the run with
its fault. -/
def runOps {T : Type} (comp : T → T → Bool) :
    List (QueueOp T) → PriorityQueue T → Except Fault (List T × PriorityQueue T)
  | [], q => .ok ([], q)
  | .push item :: ops, q => runOps comp ops (q.Push comp item)
  | .pop :: ops, q =>
    match q.Pop comp with
    | .ok (item, q1) =>
      match runOps comp ops q1 with
      | .ok (items, q2) => .ok (item :: items, q2)
      | .error e => .error e
    | .error e => .error e

/-- Reference model in the spec's words ("a reference sorted-list model"): the
queue is the ascending list of the fitness values in it; a push inserts in
order, a pop takes the head. The result is the popped values and the final list,
`none` when a pop met the empty list. -/
def refRun {F : Type} [LinearOrder F] : List (QueueOp F) → List F → Option (List F × List F)
  | [], s => some ([], s)
  | .push v :: ops, s => refRun ops (s.orderedInsert (fun a b => a ≤ b) v)
  | .pop :: ops, s =>
    match s with
    | [] => none
    | m :: rest =>
      match refRun ops rest with
      | some (vs, r) => some (m :: vs, r)
      | none => none

/-- What the reference model sees of a call: the fitness of a pushed item. -/
def QueueOp.fitness {T F : Type} (fit : T → F) : QueueOp T → QueueOp F
  | .push item => .push (fit item)
  | .pop => .pop

/-- What the reference model sees of a finished run: the fitness values popped
and the ascending list of the fitness values left in the container. -/
def observe {T F : Type} [LinearOrder F] (fit : T → F) :
    Except Fault (List T × PriorityQueue T) → Option (List F × List F)
  | .ok (items, q) =>
    some (items.map fit, (q.m_Container.map fit).insertionSort (fun a b => a ≤ b))
  | .error _ => none

/-! ## Concrete objects for the worked instances -/

/-- A memory over `Int`: the node at address `a` lies at `(a, 0, 0)`; the
planning node at address `a` wraps node `a`, has goal node 0 and fitness
`7 * a % 5`, so the addresses 1, 2, 3, 4 have fitness 2, 4, 1, 3 and the
addresses 1 and 6 tie at 2. -/
def exampleMemory : Memory Int :=
  { nodes := fun a => { m_Position := { x := a, y := 0, z := 0 }, m_Edges := [] }
    planning := fun a =>
      { m_Prev := none, m_Node := a, m_Goal := 0, m_GoalCost := 0,
        m_HeuristicCost := ((7 * a % 5 : Nat) : Int),
        m_FitnessCost := ((7 * a % 5 : Nat) : Int), m_Closed := false } }

/-! ## Heap order -/

/-- Heap order among the first `len` elements of `l`, for the parents at index
`lo` and above: the key of a parent is at most the key of each of its children
`2 * i + 1` and `2 * i + 2`. -/
def HeapFrom {T F : Type} [LE F] (k : T → F) (l : List T) (len lo : Nat) : Prop :=
  ∀ i j x y, lo ≤ i → j < len → (j = 2 * i + 1 ∨ j = 2 * i + 2) →
    l[i]? = some x → l[j]? = some y → k x ≤ k y

/-- Heap order on the whole list: every parent has a key at most that of each of
its children. -/
def IsHeap {T F : Type} [LE F] (k : T → F) (l : List T) : Prop :=
  ∀ i j x y, (j = 2 * i + 1 ∨ j = 2 * i + 2) → l[i]? = some x → l[j]? = some y → k x ≤ k y

/-! ## Sequences of cursor calls on a Plan -/

/-- A call of one of the cursor methods of `Plan`. -/
inductive CursorOp where
  | reset
  | next
  | hasNext
  | getCurrent
  | getGoal
deriving DecidableEq, Repr

/-- The plan after one cursor call, whose return value is dropped. `HasNext`,
`GetCurrent` and `GetGoal` assign no member, so they hand the plan back as it
is; `Next` and `GetCurrent` pass on the fault of a read outside the path. -/
def Plan.applyOp : CursorOp → Plan → Except Fault Plan
  | .reset, p => .ok p.Reset
  | .next, p =>
    match p.Next with
    | .ok (_, p1) => .ok p1
    | .error e => .error e
  | .hasNext, p => .ok p
  | .getCurrent, p =>
    match p.GetCurrent with
    | .ok _ => .ok p
    | .error e => .error e
  | .getGoal, p => .ok p

/-- The plan after a sequence of cursor calls; the first fault stops the run. -/
def Plan.applyOps : List CursorOp → Plan → Except Fault Plan
  | [], p => .ok p
  | op :: ops, p =>
    match Plan.applyOp op p with
    | .ok p1 => Plan.applyOps ops p1
    | .error e => .error e

/-! ## Counting the calls of a run on a queue -/

/-- Whether a call is a `Push`. -/
def QueueOp.isPush {T : Type} : QueueOp T → Bool
  | .push _ => true
  | .pop => false

/-- Whether a call is a `Pop`. -/
def QueueOp.isPop {T : Type} : QueueOp T → Bool
  | .push _ => false
  | .pop => true

/-- The items pushed by a sequence of calls, in order. -/
def pushedItems {T : Type} : List (QueueOp T) → List T
  | [] => []
  | .push item :: ops => item :: pushedItems ops
  | .pop :: ops => pushedItems ops

/-- The reference multiset of a queue: the items of its container, order
forgotten. -/
def PriorityQueue.contents {T : Type} (q : PriorityQueue T) : Multiset T :=
  Multiset.ofList q.m_Container

/-! ## Fitness values that may be NaN -/

/-- External functions over `Int` for the worked instances: the length of a
vector is the sum of the absolute values of its coordinates and every edge
costs 1. -/
def exampleExternals : Externals Int :=
  { Length := fun v => ((v.x.natAbs + v.y.natAbs + v.z.natAbs : Nat) : Int)
    GetCostFrom := fun _ _ => 1 }

/-- A memory over `Int` in the middle of a search towards node 0: the node at
address `a` lies at `(a, 0, 0)`. Planning node 1 wraps node 3 with goal-cost 2
and fitness 5. Planning node 2 wraps node 1 and was reached through planning
node 1 at goal-cost 9, fitness 10. Every other address, 3 among them, holds the
start planning node on node 2 with goal-cost 0 and fitness 2. -/
def staleMemory : Memory Int :=
  { nodes := fun a => { m_Position := { x := a, y := 0, z := 0 }, m_Edges := [] }
    planning := fun a =>
      if a = 1 then
        { m_Prev := some 3, m_Node := 3, m_Goal := 0, m_GoalCost := 2, m_HeuristicCost := 3,
          m_FitnessCost := 5, m_Closed := false }
      else if a = 2 then
        { m_Prev := some 1, m_Node := 1, m_Goal := 0, m_GoalCost := 9, m_HeuristicCost := 1,
          m_FitnessCost := 10, m_Closed := false }
      else
        { m_Prev := none, m_Node := 2, m_Goal := 0, m_GoalCost := 0, m_HeuristicCost := 2,
          m_FitnessCost := 2, m_Closed := true } }

/-- The memory `staleMemory` after `SetPrevious` made the start planning node
3 the back-reference of planning node 2: a cheaper path to a queued node. -/
def staleMemoryAfter : Memory Int :=
  PlanningNode.SetPrevious exampleExternals staleMemory 2 (some 3)

end ai.path

/-! ## GameClient: the tick loop (src/mcbot/GameClient.cpp) -/

namespace GameClient

/-- Constant `TickDelay = 1000/20` of `run`, an `s64` division. -/
def TickDelay : Int := Int.tdiv 1000 20

/-- Constant `MaximumUpdates = 3` of `run`. -/
def MaximumUpdates : Int := 3

/-- The loop `for (s64 i = 0; i < bound; ++i) { m_PlayerController.Update(); ... }`
of `run`, from the value `i` on: the number of `Update()` calls made, added to
`calls`. The first argument bounds the number of passes; `bound - i` passes
suffice. -/
def updateLoop (bound : Int) : Nat → Int → Nat → Nat
  | 0, _, calls => calls
  | fuel + 1, i, calls =>
    if i < bound then updateLoop bound fuel (i + 1) (calls + 1) else calls

/-- One pass through the body of the `while` loop of `run`, from the reading
`time = util::GetTime()` on: the value of `lastUpdate` afterwards and the
number of `m_PlayerController.Update()` calls made. `s64` is `Int` (no
overflow) and `/` is the truncating division of C++. -/
def runIteration (lastUpdate time : Int) : Int × Nat :=
  if time < lastUpdate + TickDelay then (lastUpdate, 0)
  else
    let updateCount : Int := Int.tdiv (time - lastUpdate) TickDelay
    let lastUpdate1 : Int := lastUpdate + TickDelay * updateCount
    (lastUpdate1,
      updateLoop (min updateCount MaximumUpdates) (min updateCount MaximumUpdates).toNat 0 0)

end GameClient

namespace ai.path

/-! ## Lemmas on Plan -/

namespace Plan

lemma addNodes_path (p : Plan) (ns : List NodePtr) :
    (addNodes p ns).m_Path = p.m_Path ++ ns := by
  induction ns generalizing p with
  | nil => simp [addNodes]
  | cons n ns ih =>
    have h := ih (p.AddNode n)
    simp only [addNodes, List.foldl_cons] at h ⊢
    rw [h]
    simp [AddNode]

lemma build_eq (ns : List NodePtr) : build ns = { m_Path := ns, m_Iterator := 0 } := by
  have h := addNodes_path Plan.ctor ns
  simp only [Plan.ctor, List.nil_append] at h
  simp only [build, Reset, Plan.ctor, h]

lemma Next_of_get (l : List NodePtr) (i : Nat) (n : NodePtr) (h : l[i]? = some n) :
    Next { m_Path := l, m_Iterator := i } = .ok (n, { m_Path := l, m_Iterator := i + 1 }) := by
  simp [Next, deref, h]

lemma Next_of_end (l : List NodePtr) (i : Nat) (h : l.length ≤ i) :
    Next { m_Path := l, m_Iterator := i } = .error .outOfBoundsRead := by
  have h1 : l[i]? = none := List.getElem?_eq_none h
  simp [Next, deref, h1]

lemma NextN_run (l : List NodePtr) (k i : Nat) (h : i + k ≤ l.length) :
    NextN k { m_Path := l, m_Iterator := i }
      = .ok ((l.drop i).take k, { m_Path := l, m_Iterator := i + k }) := by
  induction k generalizing i with
  | zero => simp [NextN]
  | succ k ih =>
    have hi : i < l.length := by omega
    have hget : l[i]? = some l[i] := List.getElem?_eq_getElem hi
    have hd : l.drop i = l[i] :: l.drop (i + 1) := List.drop_eq_getElem_cons hi
    have hrec := ih (i + 1) (by omega)
    simp only [NextN, Next_of_get l i _ hget, hrec, List.take_succ_cons]
    rw [hd, List.take_succ_cons]
    have e : i + 1 + k = i + (k + 1) := by omega
    rw [e]

end Plan

end ai.path


namespace ai.path

/-! ## Lemmas on the heap algorithms -/

section HeapTheory

variable {T F : Type}

lemma getElem?_exchange (l : List T) (i c : Nat) (a b : T)
    (hi : l[i]? = some a) (hc : l[c]? = some b) (m : Nat) :
    ((l.set i b).set c a)[m]? = if m = c then some a else if m = i then some b else l[m]? := by
  have hil : i < l.length := (List.getElem?_eq_some.mp hi).1
  have hcl : c < l.length := (List.getElem?_eq_some.mp hc).1
  rw [List.getElem?_set, List.getElem?_set]
  by_cases h1 : m = c
  · subst h1
    simp [hcl]
  · by_cases h2 : m = i
    · subst h2
      simp [h1, hil, Ne.symm h1]
    · simp [h1, h2, Ne.symm h1, Ne.symm h2]

lemma perm_cons_set (l : List T) (n : Nat) (a b : T) (h : l[n]? = some b) :
    (b :: l.set n a).Perm (a :: l) := by
  induction l generalizing n with
  | nil => simp at h
  | cons y ys ih =>
    cases n with
    | zero =>
      simp at h
      subst h
      simpa using List.Perm.swap a y ys
    | succ n =>
      simp at h
      have h1 := ih n h
      simp only [List.set_cons_succ]
      exact ((List.Perm.swap y b _).trans (h1.cons y)).trans (List.Perm.swap a y ys)

lemma perm_exchange (l : List T) (i c : Nat) (a b : T)
    (hi : l[i]? = some a) (hc : l[c]? = some b) (hlt : i < c) :
    ((l.set i b).set c a).Perm l := by
  induction l generalizing i c with
  | nil => simp at hi
  | cons x xs ih =>
    cases c with
    | zero => omega
    | succ c =>
      cases i with
      | zero =>
        simp at hi hc
        subst hi
        simpa using perm_cons_set xs c x b hc
      | succ i =>
        simp at hi hc
        simp only [List.set_cons_succ]
        exact (ih i c hi hc (by omega)).cons x

lemma siftDown_perm (comp : T → T → Bool) (len : Nat) (fuel : Nat) (l : List T) (i : Nat) :
    (siftDown comp len fuel l i).Perm l := by
  induction fuel generalizing l i with
  | zero => simp [siftDown]
  | succ fuel ih =>
    unfold siftDown
    split
    · split
      · rename_i a b ha hb
        split
        · have hlt : i < pickChild comp len l i := by
            unfold pickChild
            split <;> [split; skip] <;> omega
          exact (ih _ _).trans (perm_exchange l i _ a b ha hb hlt)
        · exact List.Perm.refl _
      · exact List.Perm.refl _
    · exact List.Perm.refl _

lemma pickChild_cases (comp : T → T → Bool) (len : Nat) (l : List T) (i : Nat)
    (hleft : 2 * i + 1 < len) :
    (pickChild comp len l i = 2 * i + 1 ∨ pickChild comp len l i = 2 * i + 2) ∧
      pickChild comp len l i < len := by
  unfold pickChild
  split
  · split
    · rename_i h
      simp only [Bool.and_eq_true, decide_eq_true_eq] at h
      exact ⟨Or.inr rfl, h.1⟩
    · exact ⟨Or.inl rfl, hleft⟩
  · exact ⟨Or.inl rfl, hleft⟩

lemma siftDown_getElem?_of_ge (comp : T → T → Bool) (len : Nat) (fuel : Nat) (l : List T)
    (i m : Nat) (hm : len ≤ m) : (siftDown comp len fuel l i)[m]? = l[m]? := by
  induction fuel generalizing l i with
  | zero => simp [siftDown]
  | succ fuel ih =>
    unfold siftDown
    split
    · rename_i hleft
      have hp := pickChild_cases comp len l i hleft
      split
      · rename_i a b ha hb
        split
        · rw [ih, getElem?_exchange l i _ a b ha hb]
          have h1 : m ≠ pickChild comp len l i := by omega
          have h2 : m ≠ i := by omega
          simp [h1, h2]
        · rfl
      · rfl
    · rfl

lemma pickChild_le [LinearOrder F] (k : T → F) (comp : T → T → Bool)
    (hc : ∀ a b, comp a b = true ↔ k b ≤ k a) (len : Nat) (l : List T) (i j : Nat) (x y : T)
    (hj : j < len) (hch : j = 2 * i + 1 ∨ j = 2 * i + 2)
    (hx : l[pickChild comp len l i]? = some x) (hy : l[j]? = some y) : k x ≤ k y := by
  unfold pickChild at hx
  split at hx
  · rename_i a b ha hb
    split at hx
    · rename_i h
      simp only [Bool.and_eq_true, decide_eq_true_eq] at h
      rw [hb] at hx
      cases hx
      rcases hch with hch | hch
      · subst hch
        rw [ha] at hy
        cases hy
        exact (hc _ _).mp h.2
      · subst hch
        rw [hb] at hy
        cases hy
        exact le_refl _
    · rename_i h
      simp only [Bool.and_eq_true, decide_eq_true_eq, not_and] at h
      rw [ha] at hx
      cases hx
      rcases hch with hch | hch
      · subst hch
        rw [ha] at hy
        cases hy
        exact le_refl _
      · subst hch
        rw [hb] at hy
        cases hy
        have h1 := h hj
        rw [hc] at h1
        exact le_of_lt (not_le.mp h1)
  · rename_i hno
    rcases hch with hch | hch
    · subst hch
      rw [hx] at hy
      cases hy
      exact le_refl _
    · subst hch
      exact absurd hy (hno x y hx)

lemma siftDown_heap [LinearOrder F] (k : T → F) (comp : T → T → Bool)
    (hc : ∀ a b, comp a b = true ↔ k b ≤ k a) (len lo : Nat) (fuel : Nat) (l : List T) (i : Nat)
    (hlen : len ≤ l.length) (hfuel : len ≤ fuel + i) (hlo : lo ≤ i)
    (H1 : ∀ a j x y, lo ≤ a → a ≠ i → j < len → (j = 2 * a + 1 ∨ j = 2 * a + 2) →
      l[a]? = some x → l[j]? = some y → k x ≤ k y)
    (H2 : ∀ a j x y, lo ≤ a → (i = 2 * a + 1 ∨ i = 2 * a + 2) → j < len →
      (j = 2 * i + 1 ∨ j = 2 * i + 2) → l[a]? = some x → l[j]? = some y → k x ≤ k y) :
    HeapFrom k (siftDown comp len fuel l i) len lo := by
  induction fuel generalizing l i with
  | zero =>
    intro a j x y ha hj hch hx hy
    simp only [siftDown] at hx hy
    by_cases hai : a = i
    · omega
    · exact H1 a j x y ha hai hj hch hx hy
  | succ fuel ih =>
    unfold siftDown
    by_cases hleft : 2 * i + 1 < len
    · rw [if_pos hleft]
      obtain ⟨hpc, hplt⟩ := pickChild_cases comp len l i hleft
      have hmin := pickChild_le k comp hc len l i
      generalize pickChild comp len l i = c at hpc hplt hmin ⊢
      have hil : i < l.length := by omega
      have hcl : c < l.length := by omega
      have hgi : l[i]? = some l[i] := List.getElem?_eq_getElem hil
      have hgc : l[c]? = some l[c] := List.getElem?_eq_getElem hcl
      rw [hgi, hgc]
      simp only
      by_cases hcomp : comp l[i] l[c] = true
      · rw [if_pos hcomp]
        have hle : k l[c] ≤ k l[i] := (hc _ _).mp hcomp
        have hex := getElem?_exchange l i c l[i] l[c] hgi hgc
        apply ih
        · simp only [List.length_set]
          exact hlen
        · omega
        · omega
        · intro a j x y ha hac hj hch hx hy
          rw [hex] at hx hy
          have hja : a < j := by omega
          by_cases hai : a = i
          · subst hai
            have hx1 : l[c] = x := by
              have : a ≠ c := hac
              simpa [this] using hx
            by_cases hjc : j = c
            · subst hjc
              have hy1 : l[a] = y := by simpa using hy
              rw [← hx1, ← hy1]
              exact hle
            · have hy1 : l[j]? = some y := by
                have : j ≠ a := by omega
                simpa [hjc, this] using hy
              rw [← hx1]
              exact hmin j l[c] y hj hch hgc hy1
          · have hx1 : l[a]? = some x := by simpa [hac, hai] using hx
            have hjc : j ≠ c := by omega
            by_cases hji : j = i
            · subst hji
              have hy1 : l[c] = y := by simpa [hjc] using hy
              rw [← hy1]
              exact H2 a c x l[c] ha hch hplt hpc hx1 hgc
            · have hy1 : l[j]? = some y := by simpa [hjc, hji] using hy
              exact H1 a j x y ha hai hj hch hx1 hy1
        · intro a j x y ha hch1 hj hch hx hy
          rw [hex] at hx hy
          have hai : a = i := by omega
          subst hai
          have hjc : j ≠ c := by omega
          have hja : j ≠ a := by omega
          have hac : a ≠ c := by omega
          have hx1 : l[c] = x := by simpa [hac] using hx
          have hy1 : l[j]? = some y := by simpa [hjc, hja] using hy
          rw [← hx1]
          exact H1 c j l[c] y (by omega) (by omega) hj hch hgc hy1
      · rw [if_neg hcomp]
        intro a j x y ha hj hch hx hy
        by_cases hai : a = i
        · subst hai
          rw [hgi] at hx
          cases hx
          rw [hc] at hcomp
          have h1 : k l[a] < k l[c] := not_le.mp hcomp
          exact le_trans (le_of_lt h1) (hmin j l[c] y hj hch hgc hy)
        · exact H1 a j x y ha hai hj hch hx hy
    · rw [if_neg hleft]
      intro a j x y ha hj hch hx hy
      by_cases hai : a = i
      · omega
      · exact H1 a j x y ha hai hj hch hx hy

lemma siftUp_perm (comp : T → T → Bool) (fuel : Nat) (l : List T) (i : Nat) :
    (siftUp comp fuel l i).Perm l := by
  induction fuel generalizing l i with
  | zero => simp [siftUp]
  | succ fuel ih =>
    unfold siftUp
    split
    · exact List.Perm.refl _
    · rename_i hi0
      split
      · rename_i a b ha hb
        split
        · exact (ih _ _).trans (perm_exchange l _ i a b ha hb (by omega))
        · exact List.Perm.refl _
      · exact List.Perm.refl _

lemma siftUp_heap [LinearOrder F] (k : T → F) (comp : T → T → Bool)
    (hc : ∀ a b, comp a b = true ↔ k b ≤ k a) (fuel : Nat) (l : List T) (i : Nat)
    (hfuel : i ≤ fuel) (hil : i < l.length)
    (U1 : ∀ a j x y, j ≠ i → (j = 2 * a + 1 ∨ j = 2 * a + 2) →
      l[a]? = some x → l[j]? = some y → k x ≤ k y)
    (U2 : ∀ a j x y, (i = 2 * a + 1 ∨ i = 2 * a + 2) → (j = 2 * i + 1 ∨ j = 2 * i + 2) →
      l[a]? = some x → l[j]? = some y → k x ≤ k y) :
    IsHeap k (siftUp comp fuel l i) := by
  induction fuel generalizing l i with
  | zero =>
    intro a j x y hch hx hy
    simp only [siftUp] at hx hy
    exact U1 a j x y (by omega) hch hx hy
  | succ fuel ih =>
    unfold siftUp
    by_cases hi0 : i = 0
    · rw [if_pos hi0]
      intro a j x y hch hx hy
      exact U1 a j x y (by omega) hch hx hy
    · rw [if_neg hi0]
      have hpi : (i - 1) / 2 < i := by omega
      have hpar : i = 2 * ((i - 1) / 2) + 1 ∨ i = 2 * ((i - 1) / 2) + 2 := by omega
      generalize (i - 1) / 2 = p at hpi hpar ⊢
      have hpl : p < l.length := by omega
      have hgp : l[p]? = some l[p] := List.getElem?_eq_getElem hpl
      have hgi : l[i]? = some l[i] := List.getElem?_eq_getElem hil
      rw [hgp, hgi]
      simp only
      by_cases hcomp : comp l[p] l[i] = true
      · rw [if_pos hcomp]
        have hle : k l[i] ≤ k l[p] := (hc _ _).mp hcomp
        have hex := getElem?_exchange l p i l[p] l[i] hgp hgi
        apply ih
        · omega
        · simp only [List.length_set]
          exact hpl
        · intro a j x y hjp hch hx hy
          rw [hex] at hx hy
          by_cases hji : j = i
          · subst hji
            have hap : a = p := by omega
            subst hap
            have hai : a ≠ j := by omega
            have hx1 : l[j] = x := by simpa [hai] using hx
            have hy1 : l[a] = y := by simpa using hy
            rw [← hx1, ← hy1]
            exact hle
          · have hy1 : l[j]? = some y := by simpa [hji, hjp] using hy
            by_cases hap : a = p
            · subst hap
              have hai : a ≠ i := by omega
              have hx1 : l[i] = x := by simpa [hai] using hx
              rw [← hx1]
              exact le_trans hle (U1 a j l[a] y hji hch hgp hy1)
            · by_cases hai : a = i
              · subst hai
                have hx1 : l[p] = x := by simpa using hx
                rw [← hx1]
                exact U2 p j l[p] y hpar hch hgp hy1
              · have hx1 : l[a]? = some x := by simpa [hai, hap] using hx
                exact U1 a j x y hji hch hx1 hy1
        · intro a j x y hch1 hch hx hy
          rw [hex] at hx hy
          have hai : a ≠ i := by omega
          have hap : a ≠ p := by omega
          have hjp : j ≠ p := by omega
          have hx1 : l[a]? = some x := by simpa [hai, hap] using hx
          have h1 : k x ≤ k l[p] := U1 a p x l[p] (by omega) hch1 hx1 hgp
          by_cases hji : j = i
          · subst hji
            have hy1 : l[p] = y := by simpa using hy
            rw [← hy1]
            exact h1
          · have hy1 : l[j]? = some y := by simpa [hji, hjp] using hy
            exact le_trans h1 (U1 p j l[p] y hji hch hgp hy1)
      · rw [if_neg hcomp]
        intro a j x y hch hx hy
        by_cases hji : j = i
        · subst hji
          have hap : a = p := by omega
          subst hap
          rw [hgp] at hx
          rw [hgi] at hy
          cases hx
          cases hy
          rw [hc] at hcomp
          exact le_of_lt (not_le.mp hcomp)
        · exact U1 a j x y hji hch hx hy

lemma IsHeap.root_le [LinearOrder F] (k : T → F) (l : List T) (h : IsHeap k l) (x : T)
    (hx : l[0]? = some x) (j : Nat) (y : T) (hy : l[j]? = some y) : k x ≤ k y := by
  induction j using Nat.strong_induction_on generalizing y with
  | _ j ih =>
    by_cases hj : j = 0
    · subst hj
      rw [hx] at hy
      cases hy
      exact le_refl _
    · have hjl : j < l.length := (List.getElem?_eq_some.mp hy).1
      have hpl : (j - 1) / 2 < l.length := by omega
      have hgp : l[(j - 1) / 2]? = some l[(j - 1) / 2] := List.getElem?_eq_getElem hpl
      have h1 := ih ((j - 1) / 2) (by omega) _ hgp
      exact le_trans h1 (h ((j - 1) / 2) j _ y (by omega) hgp hy)

lemma IsHeap.head_le [LinearOrder F] (k : T → F) (x : T) (rest : List T)
    (h : IsHeap k (x :: rest)) (y : T) (hy : y ∈ x :: rest) : k x ≤ k y := by
  obtain ⟨j, hj⟩ := List.mem_iff_getElem?.mp hy
  exact IsHeap.root_le k (x :: rest) h x (by simp) j y hj

lemma isHeap_nil [LinearOrder F] (k : T → F) : IsHeap k ([] : List T) := by
  intro i j x y _ hx _
  simp at hx

lemma push_heap_perm (comp : T → T → Bool) (l : List T) : (push_heap comp l).Perm l :=
  siftUp_perm comp _ l _

lemma push_heap_isHeap [LinearOrder F] (k : T → F) (comp : T → T → Bool)
    (hc : ∀ a b, comp a b = true ↔ k b ≤ k a) (old : List T) (item : T) (h : IsHeap k old) :
    IsHeap k (push_heap comp (old ++ [item])) := by
  unfold push_heap
  have hlen : (old ++ [item]).length = old.length + 1 := by simp
  apply siftUp_heap k comp hc
  · omega
  · omega
  · intro a j x y hji hch hx hy
    have hjl : j < (old ++ [item]).length := (List.getElem?_eq_some.mp hy).1
    have hj : j < old.length := by omega
    have ha : a < old.length := by omega
    rw [List.getElem?_append_left ha] at hx
    rw [List.getElem?_append_left hj] at hy
    exact h a j x y hch hx hy
  · intro a j x y _ hch _ hy
    have hjl : j < (old ++ [item]).length := (List.getElem?_eq_some.mp hy).1
    omega

lemma pop_heap_spec [LinearOrder F] (k : T → F) (comp : T → T → Bool)
    (hc : ∀ a b, comp a b = true ↔ k b ≤ k a) (x : T) (rest : List T)
    (h : IsHeap k (x :: rest)) :
    IsHeap k (pop_heap comp (x :: rest)).dropLast ∧
      (x :: (pop_heap comp (x :: rest)).dropLast).Perm (x :: rest) := by
  unfold pop_heap
  by_cases hn : (x :: rest).length ≤ 1
  · rw [if_pos hn]
    have hr : rest = [] := by
      cases rest with
      | nil => rfl
      | cons y ys => simp at hn
    subst hr
    simp only [List.dropLast_single]
    exact ⟨isHeap_nil k, List.Perm.refl _⟩
  · rw [if_neg hn]
    generalize hl : x :: rest = l at h hn ⊢
    have hn1 : 0 < l.length - 1 := by omega
    have hll : l.length - 1 < l.length := by omega
    have hg0 : l[0]? = some x := by rw [← hl]; simp
    have hgn : l[l.length - 1]? = some l[l.length - 1] := List.getElem?_eq_getElem hll
    rw [hg0, hgn]
    simp only
    have hex := getElem?_exchange l 0 (l.length - 1) x l[l.length - 1] hg0 hgn
    have hpx := perm_exchange l 0 (l.length - 1) x l[l.length - 1] hg0 hgn hn1
    generalize hl1 : (l.set 0 l[l.length - 1]).set (l.length - 1) x = l1 at hex hpx ⊢
    have hl1len : l1.length = l.length := hpx.length_eq
    have hperm := siftDown_perm comp (l.length - 1) (l.length - 1) l1 0
    have hlast := siftDown_getElem?_of_ge comp (l.length - 1) (l.length - 1) l1 0
      (l.length - 1) (le_refl _)
    have hheap : HeapFrom k (siftDown comp (l.length - 1) (l.length - 1) l1 0)
        (l.length - 1) 0 := by
      apply siftDown_heap k comp hc
      · omega
      · omega
      · omega
      · intro a j u v _ ha0 hj hch hu hv
        rw [hex] at hu hv
        have h1 : a ≠ l.length - 1 := by omega
        have h2 : j ≠ l.length - 1 := by omega
        have h3 : j ≠ 0 := by omega
        have hu1 : l[a]? = some u := by simpa [h1, ha0] using hu
        have hv1 : l[j]? = some v := by simpa [h2, h3] using hv
        exact h a j u v hch hu1 hv1
      · intro a j u v _ hch1 _ _ _ _
        omega
    generalize siftDown comp (l.length - 1) (l.length - 1) l1 0 = r at hperm hlast hheap ⊢
    have hrlen : r.length = l.length := by rw [hperm.length_eq, hl1len]
    have hrlast : r.getLast? = some x := by
      rw [List.getLast?_eq_getElem?, hrlen, hlast, hex]
      simp
    have hsplit : r.dropLast ++ [x] = r := List.dropLast_append_getLast? x hrlast
    constructor
    · intro i j u v hch hu hv
      rw [List.getElem?_dropLast] at hu hv
      split at hv
      · rename_i hjlt
        split at hu
        · exact hheap i j u v (Nat.zero_le _) (by omega) hch hu hv
        · cases hu
      · cases hv
    · have h1 : (x :: r.dropLast).Perm (r.dropLast ++ [x]) :=
        (List.perm_append_singleton x r.dropLast).symm
      rw [hsplit] at h1
      exact (h1.trans hperm).trans hpx

lemma heapifyFrom_perm (comp : T → T → Bool) (parent : Nat) (l : List T) :
    (heapifyFrom comp parent l).Perm l := by
  induction parent generalizing l with
  | zero => exact siftDown_perm comp _ _ l 0
  | succ parent ih =>
    unfold heapifyFrom
    exact (ih _).trans (siftDown_perm comp _ _ l _)

lemma make_heap_perm (comp : T → T → Bool) (l : List T) : (make_heap comp l).Perm l := by
  unfold make_heap
  split
  · exact List.Perm.refl _
  · exact heapifyFrom_perm comp _ l

end HeapTheory

/-! ## Lemmas on PriorityQueue -/

section QueueTheory

variable {T F : Type} [LinearOrder F]

lemma PlanningNodeComparator_iff (M : Memory F) (a b : Nat) :
    PlanningNodeComparator M a b = true ↔
      PlanningNode.GetFitnessCost M b ≤ PlanningNode.GetFitnessCost M a := by
  simp [PlanningNodeComparator, PlanningNode.IsBetterThan, PlanningNode.GetFitnessCost]

lemma Push_isHeap (k : T → F) (comp : T → T → Bool) (hc : ∀ a b, comp a b = true ↔ k b ≤ k a)
    (q : PriorityQueue T) (item : T) (h : IsHeap k q.m_Container) :
    IsHeap k (q.Push comp item).m_Container :=
  push_heap_isHeap k comp hc q.m_Container item h

lemma Push_perm (comp : T → T → Bool) (q : PriorityQueue T) (item : T) :
    (q.Push comp item).m_Container.Perm (item :: q.m_Container) :=
  (push_heap_perm comp _).trans (List.perm_append_singleton item q.m_Container)

lemma Pop_ok_inv (comp : T → T → Bool) (q : PriorityQueue T) (item : T) (q1 : PriorityQueue T)
    (h : q.Pop comp = .ok (item, q1)) :
    ∃ rest, q.m_Container = item :: rest ∧
      q1.m_Container = (pop_heap comp (item :: rest)).dropLast := by
  unfold PriorityQueue.Pop at h
  cases hq : q.m_Container with
  | nil => simp [hq] at h
  | cons x rest =>
    simp only [hq, List.head?_cons, Except.ok.injEq, Prod.mk.injEq] at h
    obtain ⟨h1, h2⟩ := h
    subst h1
    exact ⟨rest, rfl, by rw [← h2]⟩

lemma Pop_cons (comp : T → T → Bool) (q : PriorityQueue T) (x : T) (rest : List T)
    (hq : q.m_Container = x :: rest) :
    q.Pop comp = .ok (x, { m_Container := (pop_heap comp (x :: rest)).dropLast }) := by
  simp [PriorityQueue.Pop, hq]

lemma Pop_nil (comp : T → T → Bool) (q : PriorityQueue T) (hq : q.m_Container = []) :
    q.Pop comp = .error .emptyFront := by
  simp [PriorityQueue.Pop, hq]

lemma Pop_min (k : T → F) (comp : T → T → Bool) (hc : ∀ a b, comp a b = true ↔ k b ≤ k a)
    (q : PriorityQueue T) (h : IsHeap k q.m_Container) (item : T) (q1 : PriorityQueue T)
    (hp : q.Pop comp = .ok (item, q1)) :
    IsHeap k q1.m_Container ∧ (item :: q1.m_Container).Perm q.m_Container ∧
      (∀ y ∈ q.m_Container, k item ≤ k y) ∧ ∀ y ∈ q1.m_Container, k item ≤ k y := by
  obtain ⟨rest, hq, hq1⟩ := Pop_ok_inv comp q item q1 hp
  rw [hq] at h
  obtain ⟨h1, h2⟩ := pop_heap_spec k comp hc item rest h
  rw [← hq1] at h1 h2
  have hall : ∀ y ∈ q.m_Container, k item ≤ k y := by
    intro y hy
    rw [hq] at hy
    exact IsHeap.head_le k item rest h y hy
  refine ⟨h1, by rw [hq]; exact h2, hall, ?_⟩
  intro y hy
  apply hall
  rw [hq]
  exact h2.subset (List.mem_cons_of_mem _ hy)

lemma Update_perm (comp : T → T → Bool) (q : PriorityQueue T) :
    (q.Update comp).m_Container.Perm q.m_Container :=
  make_heap_perm comp q.m_Container

lemma runOps_isHeap (k : T → F) (comp : T → T → Bool)
    (hc : ∀ a b, comp a b = true ↔ k b ≤ k a) (ops : List (QueueOp T)) (q : PriorityQueue T)
    (h : IsHeap k q.m_Container) (outs : List T) (q1 : PriorityQueue T)
    (hr : runOps comp ops q = .ok (outs, q1)) : IsHeap k q1.m_Container := by
  induction ops generalizing q outs with
  | nil =>
    simp only [runOps, Except.ok.injEq, Prod.mk.injEq] at hr
    rw [← hr.2]
    exact h
  | cons op ops ih =>
    cases op with
    | push item =>
      simp only [runOps] at hr
      exact ih _ (Push_isHeap k comp hc q item h) outs hr
    | pop =>
      simp only [runOps] at hr
      cases hp : q.Pop comp with
      | error e => simp [hp] at hr
      | ok res =>
        obtain ⟨item, q2⟩ := res
        simp only [hp] at hr
        cases hrun : runOps comp ops q2 with
        | error e => simp [hrun] at hr
        | ok res2 =>
          obtain ⟨items, q3⟩ := res2
          simp only [hrun, Except.ok.injEq, Prod.mk.injEq] at hr
          exact ih q2 (Pop_min k comp hc q h item q2 hp).1 items (by rw [hrun, hr.2])

lemma runOps_refines (k : T → F) (comp : T → T → Bool)
    (hc : ∀ a b, comp a b = true ↔ k b ≤ k a) (ops : List (QueueOp T)) (q : PriorityQueue T)
    (s : List F) (h : IsHeap k q.m_Container) (hs : s.Sorted (fun a b => a ≤ b))
    (hperm : (q.m_Container.map k).Perm s) :
    observe k (runOps comp ops q) = refRun (ops.map (QueueOp.fitness k)) s := by
  induction ops generalizing q s with
  | nil =>
    simp only [runOps, observe, List.map_nil, refRun, Option.some.injEq, Prod.mk.injEq,
      true_and]
    exact List.eq_of_perm_of_sorted ((List.perm_insertionSort _ _).trans hperm)
      (List.sorted_insertionSort _ _) hs
  | cons op ops ih =>
    cases op with
    | push item =>
      simp only [runOps, List.map_cons, QueueOp.fitness, refRun]
      apply ih
      · exact Push_isHeap k comp hc q item h
      · exact hs.orderedInsert _ _
      · have h1 := (Push_perm comp q item).map k
        rw [List.map_cons] at h1
        exact (h1.trans (hperm.cons (k item))).trans (List.perm_orderedInsert _ _ _).symm
    | pop =>
      simp only [runOps, List.map_cons, QueueOp.fitness, refRun]
      cases hq : q.m_Container with
      | nil =>
        rw [hq, List.map_nil] at hperm
        have hs0 : s = [] := (List.Perm.nil_eq hperm).symm
        subst hs0
        rw [Pop_nil comp q hq]
        rfl
      | cons x rest =>
        have hp := Pop_cons comp q x rest hq
        obtain ⟨hh, hpm, hall, _⟩ := Pop_min k comp hc q h x _ hp
        rw [hp]
        cases s with
        | nil =>
          rw [hq] at hperm
          exact absurd hperm.length_eq (by simp)
        | cons m s1 =>
          have hxm : k x = m := by
            apply le_antisymm
            · have hm : m ∈ q.m_Container.map k := hperm.symm.subset (List.mem_cons_self _ _)
              obtain ⟨y, hy, hym⟩ := List.mem_map.mp hm
              rw [← hym]
              exact hall y hy
            · have hx : k x ∈ m :: s1 :=
                hperm.subset (List.mem_map.mpr ⟨x, by rw [hq]; exact List.mem_cons_self _ _, rfl⟩)
              rcases List.mem_cons.mp hx with hx | hx
              · exact le_of_eq hx.symm
              · exact List.rel_of_sorted_cons hs _ hx
          subst hxm
          have hperm1 : (List.map k (pop_heap comp (x :: rest)).dropLast).Perm s1 := by
            have h1 := hpm.map k
            rw [List.map_cons] at h1
            exact (h1.trans hperm).cons_inv
          have hrec := ih { m_Container := (pop_heap comp (x :: rest)).dropLast } s1 hh
            hs.of_cons hperm1
          simp only
          rw [← hrec]
          cases runOps comp ops { m_Container := (pop_heap comp (x :: rest)).dropLast } with
          | error e => rfl
          | ok res => rfl

end QueueTheory

end ai.path

namespace ai.path

/-! ## Plan: the cursor contract -/

/-- C2: a plan built by `AddNode(n1), ..., AddNode(nN)` and `Reset()` allows
exactly `N` successful `Next()` calls. For every `i < N`, the first `i` calls
succeed and return the first `i` nodes, `HasNext()` is then true and the next
call returns the node added in place `i` (insertion order). After the `N`-th
call the nodes returned are the whole path in insertion order, `HasNext()` is
false, and one more `Next()` is not a success. -/
theorem Plan_Next_replays_insertion_order (ns : List NodePtr) :
    (∀ (i : Nat) (h : i < ns.length), ∃ p p1,
        Plan.NextN i (Plan.build ns) = .ok (ns.take i, p) ∧ p.HasNext = true ∧
          p.Next = .ok (ns[i], p1)) ∧
      ∃ p, Plan.NextN ns.length (Plan.build ns) = .ok (ns, p) ∧ p.HasNext = false ∧
        p.Next = .error .outOfBoundsRead := by
  rw [Plan.build_eq]
  constructor
  · intro i h
    refine ⟨{ m_Path := ns, m_Iterator := i }, { m_Path := ns, m_Iterator := i + 1 }, ?_, ?_, ?_⟩
    · have := Plan.NextN_run ns i 0 (by omega)
      simpa using this
    · simp only [Plan.HasNext, bne_iff_ne, ne_eq]
      omega
    · exact Plan.Next_of_get ns i _ (List.getElem?_eq_getElem h)
  · refine ⟨{ m_Path := ns, m_Iterator := ns.length }, ?_, ?_, ?_⟩
    · have := Plan.NextN_run ns ns.length 0 (by omega)
      simpa using this
    · simp [Plan.HasNext]
    · exact Plan.Next_of_end ns ns.length (le_refl _)

/-- Worked instance of C2 on the path `[7, nullptr, 9]`: after one `Next()` the
cursor has a next node and the second call returns the second node added. -/
theorem Plan_Next_replays_insertion_order_witness :
    ∃ p p1, Plan.NextN 1 (Plan.build [some 7, none, some 9]) = .ok ([some 7], p) ∧
      p.HasNext = true ∧ p.Next = .ok (none, p1) :=
  (Plan_Next_replays_insertion_order [some 7, none, some 9]).1 1 (by decide)

/-- C3, on the code: on the plan `[10, 20]`, after `Reset()` and two `Next()`
calls `HasNext()` is false, and the third `Next()` dereferences
`m_Path.end()`: it reads past the end of the path instead of reporting an
error, while `GetCurrent()` in the same state tests the cursor and returns
`nullptr`. -/
theorem Plan_Next_past_end_reads_out_of_bounds :
    Plan.NextN 2 (Plan.build [some 10, some 20])
        = .ok ([some 10, some 20], { m_Path := [some 10, some 20], m_Iterator := 2 }) ∧
      Plan.HasNext { m_Path := [some 10, some 20], m_Iterator := 2 } = false ∧
      Plan.Next { m_Path := [some 10, some 20], m_Iterator := 2 } = .error .outOfBoundsRead ∧
      Plan.GetCurrent { m_Path := [some 10, some 20], m_Iterator := 2 } = .ok none :=
  ⟨rfl, rfl, rfl, rfl⟩

/-- C4: on a plan with the nodes `ns` followed by `n` (so `N = ns.length + 1`
nodes), after `Reset()` the first `N - 1` calls of `Next()` return `ns`, the
`N`-th and final call returns `n`, the node added last, after which `HasNext()`
is false; `GetGoal()` returns that same `n`, before and after the traversal.
On an empty plan, freshly constructed or built from no node, `GetGoal()`
returns `nullptr`. -/
theorem Plan_GetGoal_is_final_Next (ns : List NodePtr) (n : NodePtr) :
    (∃ p p1, Plan.NextN ns.length (Plan.build (ns ++ [n])) = .ok (ns, p) ∧
        p.Next = .ok (n, p1) ∧ p1.HasNext = false ∧ p1.GetGoal = n ∧
        (Plan.build (ns ++ [n])).GetGoal = n) ∧
      Plan.ctor.GetGoal = none ∧ (Plan.build []).GetGoal = none := by
  refine ⟨?_, rfl, rfl⟩
  rw [Plan.build_eq]
  refine ⟨{ m_Path := ns ++ [n], m_Iterator := ns.length },
    { m_Path := ns ++ [n], m_Iterator := ns.length + 1 }, ?_, ?_, ?_, ?_, ?_⟩
  · have := Plan.NextN_run (ns ++ [n]) ns.length 0 (by simp)
    simpa using this
  · exact Plan.Next_of_get (ns ++ [n]) ns.length n (List.getElem?_concat_length ns n)
  · simp [Plan.HasNext]
  · simp [Plan.GetGoal]
  · simp [Plan.GetGoal]

/-- C10: `AddNode(n)` on a plan with node sequence `s` leaves the sequence `s`
followed by `n`, the earlier nodes and their order unchanged; `GetGoal()` then
returns `n`; and after a following `Reset()`, `s.length + 1` calls of `Next()`
return `s` and then `n`, after which `HasNext()` is false. -/
theorem Plan_AddNode_appends (p : Plan) (n : NodePtr) :
    (p.AddNode n).m_Path = p.m_Path ++ [n] ∧ (p.AddNode n).GetGoal = n ∧
      ∃ p1, Plan.NextN (p.m_Path.length + 1) (p.AddNode n).Reset = .ok (p.m_Path ++ [n], p1) ∧
        p1.HasNext = false := by
  refine ⟨rfl, ?_, ?_⟩
  · simp [Plan.GetGoal, Plan.AddNode]
  · refine ⟨{ m_Path := p.m_Path ++ [n], m_Iterator := p.m_Path.length + 1 }, ?_, ?_⟩
    · have := Plan.NextN_run (p.m_Path ++ [n]) (p.m_Path.length + 1) 0 (by simp)
      have ht : List.take (p.m_Path.length + 1) (p.m_Path ++ [n]) = p.m_Path ++ [n] :=
        List.take_of_length_le (by simp)
      simpa [Plan.AddNode, Plan.Reset, ht] using this
    · simp [Plan.HasNext]

/-! ## PlanningNode: costs -/

/-- C5: after `SetPrevious(previous)`, for `previous` null or not, the fitness
stored in the planning node is the sum of its goal-cost and its heuristic-cost
as that call left them; hence `IsBetterThan` on that node compares the
up-to-date sum with the other node's fitness. -/
theorem PlanningNode_SetPrevious_fitness_is_sum {F : Type} [Add F] [Zero F] [LT F]
    [DecidableRel (fun a b : F => a < b)] (E : Externals F) (M : Memory F) (self : Nat)
    (previous : Option Nat) (other : Nat) :
    PlanningNode.GetFitnessCost (PlanningNode.SetPrevious E M self previous) self
        = PlanningNode.GetGoalCost (PlanningNode.SetPrevious E M self previous) self
          + PlanningNode.GetHeuristicCost (PlanningNode.SetPrevious E M self previous) self ∧
      PlanningNode.IsBetterThan (PlanningNode.SetPrevious E M self previous) self other
        = decide (PlanningNode.GetGoalCost (PlanningNode.SetPrevious E M self previous) self
            + PlanningNode.GetHeuristicCost (PlanningNode.SetPrevious E M self previous) self
          < PlanningNode.GetFitnessCost (PlanningNode.SetPrevious E M self previous) other) := by
  have h : PlanningNode.GetFitnessCost (PlanningNode.SetPrevious E M self previous) self
      = PlanningNode.GetGoalCost (PlanningNode.SetPrevious E M self previous) self
        + PlanningNode.GetHeuristicCost (PlanningNode.SetPrevious E M self previous) self := by
    simp [PlanningNode.SetPrevious, PlanningNode.GetFitnessCost, PlanningNode.GetGoalCost,
      PlanningNode.GetHeuristicCost, Memory.write]
  refine ⟨h, ?_⟩
  rw [← h]
  rfl

/-- C6: `SetPrevious(nullptr)` sets the goal-cost to 0, the fitness to the
heuristic distance between the position of the node and the position of the
goal (the length of the coordinate-wise difference of the two stored
positions), and the back-reference to null. `SetPrevious(p)` for a planning
node `p` sets the goal-cost to the goal-cost `p` had at the call plus
`m_Node->GetCostFrom(n)` for the node pointer `n` stored in `p`, and stores `p`
as the back-reference. Each value is given both as the stored member and as
what the getter returns. -/
theorem PlanningNode_SetPrevious_goal_cost {F : Type} [AddZeroClass F] (E : Externals F)
    (M : Memory F) (self p : Nat) :
    (((PlanningNode.SetPrevious E M self none).planning self).m_GoalCost = 0 ∧
      PlanningNode.GetGoalCost (PlanningNode.SetPrevious E M self none) self = 0 ∧
      ((PlanningNode.SetPrevious E M self none).planning self).m_FitnessCost
        = E.Length
            { x := (M.nodes (M.planning self).m_Node).m_Position.x
                - (M.nodes (M.planning self).m_Goal).m_Position.x
              y := (M.nodes (M.planning self).m_Node).m_Position.y
                - (M.nodes (M.planning self).m_Goal).m_Position.y
              z := (M.nodes (M.planning self).m_Node).m_Position.z
                - (M.nodes (M.planning self).m_Goal).m_Position.z } ∧
      PlanningNode.GetFitnessCost (PlanningNode.SetPrevious E M self none) self
        = ((PlanningNode.SetPrevious E M self none).planning self).m_FitnessCost ∧
      ((PlanningNode.SetPrevious E M self none).planning self).m_Prev = none ∧
      PlanningNode.GetPrevious (PlanningNode.SetPrevious E M self none) self = none) ∧
    (((PlanningNode.SetPrevious E M self (some p)).planning self).m_GoalCost
        = (M.planning p).m_GoalCost
          + E.GetCostFrom (M.planning self).m_Node (some (M.planning p).m_Node) ∧
      PlanningNode.GetGoalCost (PlanningNode.SetPrevious E M self (some p)) self
        = ((PlanningNode.SetPrevious E M self (some p)).planning self).m_GoalCost ∧
      ((PlanningNode.SetPrevious E M self (some p)).planning self).m_Prev = some p ∧
      PlanningNode.GetPrevious (PlanningNode.SetPrevious E M self (some p)) self = some p) := by
  refine ⟨⟨?_, ?_, ?_, rfl, ?_, ?_⟩, ?_, rfl, ?_, ?_⟩
  · simp [PlanningNode.SetPrevious, Memory.write]
  · simp [PlanningNode.SetPrevious, PlanningNode.GetGoalCost, Memory.write]
  · simp [PlanningNode.SetPrevious, Memory.write, Node.GetPosition, Vector3i.sub]
  · simp [PlanningNode.SetPrevious, Memory.write]
  · simp [PlanningNode.SetPrevious, PlanningNode.GetPrevious, Memory.write]
  · by_cases hp : p = self
    · subst hp
      simp [PlanningNode.SetPrevious, PlanningNode.GetGoalCost, PlanningNode.GetNode,
        Memory.write]
    · simp [PlanningNode.SetPrevious, PlanningNode.GetGoalCost, PlanningNode.GetNode,
        Memory.write, hp]
  · simp [PlanningNode.SetPrevious, Memory.write]
  · simp [PlanningNode.SetPrevious, PlanningNode.GetPrevious, Memory.write]

/-- C7: for a planning node with fixed node and goal, the heuristic-cost after
`SetPrevious` is the length of the difference of the node position and the
goal position, whatever the back-reference: it is the same after
`SetPrevious(p)` and after `SetPrevious(q)` for any `p`, `q`, null or not.
`SetPrevious` changes neither the node, the goal nor any position, and
`SetClosed` changes neither the heuristic-cost, the goal-cost nor the fitness. -/
theorem PlanningNode_heuristic_depends_on_positions_only {F : Type} [Add F] [Zero F]
    (E : Externals F) (M : Memory F) (self : Nat) (p q : Option Nat) (closed : Bool) :
    PlanningNode.GetHeuristicCost (PlanningNode.SetPrevious E M self p) self
        = PlanningNode.GetHeuristicCost (PlanningNode.SetPrevious E M self q) self ∧
      PlanningNode.GetHeuristicCost (PlanningNode.SetPrevious E M self p) self
        = E.Length (Vector3i.sub (Node.GetPosition M (M.planning self).m_Node)
            (Node.GetPosition M (M.planning self).m_Goal)) ∧
      ((PlanningNode.SetPrevious E M self p).planning self).m_Node = (M.planning self).m_Node ∧
      ((PlanningNode.SetPrevious E M self p).planning self).m_Goal = (M.planning self).m_Goal ∧
      (PlanningNode.SetPrevious E M self p).nodes = M.nodes ∧
      PlanningNode.GetHeuristicCost (PlanningNode.SetClosed M self closed) self
        = PlanningNode.GetHeuristicCost M self ∧
      PlanningNode.GetGoalCost (PlanningNode.SetClosed M self closed) self
        = PlanningNode.GetGoalCost M self ∧
      PlanningNode.GetFitnessCost (PlanningNode.SetClosed M self closed) self
        = PlanningNode.GetFitnessCost M self := by
  have h : ∀ r : Option Nat,
      PlanningNode.GetHeuristicCost (PlanningNode.SetPrevious E M self r) self
        = E.Length (Vector3i.sub (Node.GetPosition M (M.planning self).m_Node)
            (Node.GetPosition M (M.planning self).m_Goal)) := by
    intro r
    simp [PlanningNode.SetPrevious, PlanningNode.GetHeuristicCost, Memory.write,
      Node.GetPosition]
  refine ⟨by rw [h p, h q], h p, ?_, ?_, ?_, ?_, ?_, ?_⟩
  · simp [PlanningNode.SetPrevious, Memory.write]
  · simp [PlanningNode.SetPrevious, Memory.write]
  · simp [PlanningNode.SetPrevious, Memory.write]
  · simp [PlanningNode.SetClosed, PlanningNode.GetHeuristicCost, Memory.write]
  · simp [PlanningNode.SetClosed, PlanningNode.GetGoalCost, Memory.write]
  · simp [PlanningNode.SetClosed, PlanningNode.GetFitnessCost, Memory.write]

/-- C9, on the code: `PlanningNodeComparator` holds between a planning node and
itself, and in both directions between two planning nodes of equal fitness
(addresses 1 and 6, both of fitness 2), although in neither case is one
fitness strictly lower than the other. -/
theorem PlanningNodeComparator_holds_on_equal_fitness :
    PlanningNode.GetFitnessCost exampleMemory 1 = 2 ∧
      PlanningNode.GetFitnessCost exampleMemory 6 = 2 ∧
      PlanningNodeComparator exampleMemory 1 1 = true ∧
      PlanningNodeComparator exampleMemory 1 6 = true ∧
      PlanningNodeComparator exampleMemory 6 1 = true := by
  decide

/-! ## PriorityQueue: Pop returns a minimum -/

/-- C1: for every sequence `ops` of `Push` and `Pop` calls on a new queue of
planning-node pointers, compared by `PlanningNodeComparator` in a memory that
does not change and whose fitness values are linearly ordered: the fitness
values popped, the point where a `Pop` meets the empty queue, and the fitness
values left are those of the sorted-list reference model; and in the state the
sequence reaches, `Pop` on a non-empty queue succeeds, and the item any `Pop`
returns was in the queue and has a fitness at most that of every item still in
the queue. -/
theorem PriorityQueue_Pop_returns_minimum {F : Type} [LinearOrder F] (M : Memory F)
    (ops : List (QueueOp Nat)) :
    observe (PlanningNode.GetFitnessCost M)
        (runOps (PlanningNodeComparator M) ops PriorityQueue.ctor)
      = refRun (ops.map (QueueOp.fitness (PlanningNode.GetFitnessCost M))) [] ∧
    ∀ outs q, runOps (PlanningNodeComparator M) ops PriorityQueue.ctor = .ok (outs, q) →
      (q.Empty = false → ∃ item q1, q.Pop (PlanningNodeComparator M) = .ok (item, q1)) ∧
      ∀ item q1, q.Pop (PlanningNodeComparator M) = .ok (item, q1) →
        item ∈ q.m_Container ∧
          ∀ y ∈ q1.m_Container,
            PlanningNode.GetFitnessCost M item ≤ PlanningNode.GetFitnessCost M y := by
  have hc := PlanningNodeComparator_iff M
  have h0 : IsHeap (PlanningNode.GetFitnessCost M) (PriorityQueue.ctor : PriorityQueue Nat).m_Container :=
    isHeap_nil _
  constructor
  · exact runOps_refines _ _ hc ops PriorityQueue.ctor [] h0 List.sorted_nil (List.Perm.refl _)
  · intro outs q hr
    have hq := runOps_isHeap _ _ hc ops PriorityQueue.ctor h0 outs q hr
    constructor
    · intro he
      cases hcont : q.m_Container with
      | nil => simp [PriorityQueue.Empty, hcont] at he
      | cons x rest => exact ⟨x, _, Pop_cons _ q x rest hcont⟩
    · intro item q1 hp
      obtain ⟨_, hperm, _, hmin⟩ := Pop_min _ _ hc q hq item q1 hp
      exact ⟨hperm.subset (List.mem_cons_self _ _), hmin⟩

/-- Worked instance of C1: pushing the addresses 1, 2, 3, 4 (fitness 2, 4, 1,
3) leaves the container `[3, 4, 1, 2]`; `Pop` returns 3, of fitness 1, which is
at most the fitness of 4, still in the queue. -/
theorem PriorityQueue_Pop_returns_minimum_witness :
    runOps (PlanningNodeComparator exampleMemory)
        [.push 1, .push 2, .push 3, .push 4] PriorityQueue.ctor
      = .ok ([], { m_Container := [3, 4, 1, 2] }) ∧
    PriorityQueue.Pop (PlanningNodeComparator exampleMemory) { m_Container := [3, 4, 1, 2] }
      = .ok (3, { m_Container := [1, 4, 2] }) ∧
    PlanningNode.GetFitnessCost exampleMemory 3 ≤ PlanningNode.GetFitnessCost exampleMemory 4 :=
  ⟨rfl, rfl,
    (((PriorityQueue_Pop_returns_minimum exampleMemory
      [.push 1, .push 2, .push 3, .push 4]).2 [] { m_Container := [3, 4, 1, 2] } rfl).2
        3 { m_Container := [1, 4, 2] } rfl).2 4 (by decide)⟩

end ai.path

namespace ai.path

/-! ## Lemmas on cursor calls -/

lemma Plan.applyOp_path (op : CursorOp) (p p1 : Plan) (h : Plan.applyOp op p = .ok p1) :
    p1.m_Path = p.m_Path := by
  cases op with
  | reset =>
    simp only [Plan.applyOp, Except.ok.injEq] at h
    rw [← h]
    rfl
  | next =>
    cases hd : p.deref with
    | error e => simp [Plan.applyOp, Plan.Next, hd] at h
    | ok n =>
      simp only [Plan.applyOp, Plan.Next, hd, Except.ok.injEq] at h
      rw [← h]
  | hasNext =>
    simp only [Plan.applyOp, Except.ok.injEq] at h
    rw [← h]
  | getCurrent =>
    cases hd : p.GetCurrent with
    | error e => simp [Plan.applyOp, hd] at h
    | ok n =>
      simp only [Plan.applyOp, hd, Except.ok.injEq] at h
      rw [← h]
  | getGoal =>
    simp only [Plan.applyOp, Except.ok.injEq] at h
    rw [← h]

lemma Plan.applyOps_path (ops : List CursorOp) (p p1 : Plan)
    (h : Plan.applyOps ops p = .ok p1) : p1.m_Path = p.m_Path := by
  induction ops generalizing p with
  | nil =>
    simp only [Plan.applyOps, Except.ok.injEq] at h
    rw [← h]
  | cons op ops ih =>
    cases hop : Plan.applyOp op p with
    | error e => simp [Plan.applyOps, hop] at h
    | ok p2 =>
      simp only [Plan.applyOps, hop] at h
      rw [ih p2 h, Plan.applyOp_path op p p2 hop]

lemma Plan.GetCurrent_of_le (l : List NodePtr) (i : Nat) (h : i ≤ l.length) :
    ∃ n, Plan.GetCurrent { m_Path := l, m_Iterator := i } = .ok n := by
  unfold Plan.GetCurrent
  by_cases hi : i = l.length
  · exact ⟨none, by simp [hi]⟩
  · have hlt : i < l.length := by omega
    refine ⟨l[i], ?_⟩
    simp [hi, Plan.deref, List.getElem?_eq_getElem hlt]

lemma Plan.applyOps_run (l : List NodePtr) (ops : List CursorOp) (i : Nat)
    (h : i + ops.count CursorOp.next ≤ l.length) :
    ∃ j, Plan.applyOps ops { m_Path := l, m_Iterator := i }
      = .ok { m_Path := l, m_Iterator := j } := by
  induction ops generalizing i with
  | nil => exact ⟨i, rfl⟩
  | cons op ops ih =>
    cases op with
    | reset =>
      have hc : (CursorOp.reset :: ops).count CursorOp.next = ops.count CursorOp.next := by
        simp
      rw [hc] at h
      obtain ⟨j, hj⟩ := ih 0 (by omega)
      exact ⟨j, by simpa [Plan.applyOps, Plan.applyOp, Plan.Reset] using hj⟩
    | next =>
      have hc : (CursorOp.next :: ops).count CursorOp.next = ops.count CursorOp.next + 1 := by
        simp
      rw [hc] at h
      have hlt : i < l.length := by omega
      obtain ⟨j, hj⟩ := ih (i + 1) (by omega)
      refine ⟨j, ?_⟩
      simp only [Plan.applyOps, Plan.applyOp,
        Plan.Next_of_get l i _ (List.getElem?_eq_getElem hlt)]
      exact hj
    | hasNext =>
      have hc : (CursorOp.hasNext :: ops).count CursorOp.next = ops.count CursorOp.next := by
        simp
      rw [hc] at h
      obtain ⟨j, hj⟩ := ih i h
      exact ⟨j, by simpa [Plan.applyOps, Plan.applyOp] using hj⟩
    | getCurrent =>
      have hc : (CursorOp.getCurrent :: ops).count CursorOp.next = ops.count CursorOp.next := by
        simp
      rw [hc] at h
      obtain ⟨j, hj⟩ := ih i h
      obtain ⟨n, hn⟩ := Plan.GetCurrent_of_le l i (by omega)
      refine ⟨j, ?_⟩
      simp only [Plan.applyOps, Plan.applyOp, hn]
      exact hj
    | getGoal =>
      have hc : (CursorOp.getGoal :: ops).count CursorOp.next = ops.count CursorOp.next := by
        simp
      rw [hc] at h
      obtain ⟨j, hj⟩ := ih i h
      exact ⟨j, by simpa [Plan.applyOps, Plan.applyOp] using hj⟩

lemma Plan.NextN_all (l : List NodePtr) :
    Plan.NextN l.length { m_Path := l, m_Iterator := 0 }
      = .ok (l, { m_Path := l, m_Iterator := l.length }) := by
  have := Plan.NextN_run l l.length 0 (by omega)
  simpa using this

/-! ## Plan: content and cursor -/

/-- C11: on any plan, after `Reset()` and any sequence of cursor calls
(`Reset`, `Next`, `HasNext`, `GetCurrent`, `GetGoal`) that stays inside the
path, the stored node sequence and `GetGoal()` are what they were, and a
further `Reset()` followed by `N` calls of `Next()` returns the `N` nodes in
the order of a first traversal. A sequence with at most `N` calls of `Next()`
stays inside the path. -/
theorem Plan_content_immutable_under_cursor (p0 : Plan) (ops : List CursorOp) :
    (∀ p, Plan.applyOps (CursorOp.reset :: ops) p0 = .ok p →
      p.m_Path = p0.m_Path ∧ p.GetGoal = p0.GetGoal ∧
        ∃ p1, Plan.NextN p0.m_Path.length p.Reset = .ok (p0.m_Path, p1) ∧
          Plan.NextN p0.m_Path.length p0.Reset = .ok (p0.m_Path, p1)) ∧
      (ops.count CursorOp.next ≤ p0.m_Path.length →
        ∃ p, Plan.applyOps (CursorOp.reset :: ops) p0 = .ok p) := by
  constructor
  · intro p hp
    have hpath := Plan.applyOps_path _ p0 p hp
    refine ⟨hpath, by simp [Plan.GetGoal, hpath], ?_⟩
    refine ⟨{ m_Path := p0.m_Path, m_Iterator := p0.m_Path.length }, ?_, ?_⟩
    · have := Plan.NextN_all p0.m_Path
      simpa [Plan.Reset, hpath] using this
    · exact Plan.NextN_all p0.m_Path
  · intro h
    obtain ⟨j, hj⟩ := Plan.applyOps_run p0.m_Path ops 0 (by omega)
    exact ⟨_, by simpa [Plan.applyOps, Plan.applyOp, Plan.Reset] using hj⟩

/-- Worked instance of C11 on the path `[7, nullptr, 9]`: a run with two
`Next()` calls among other cursor calls stays inside the path. -/
theorem Plan_content_immutable_under_cursor_witness :
    ∃ p, Plan.applyOps
        [CursorOp.reset, CursorOp.next, CursorOp.getCurrent, CursorOp.hasNext, CursorOp.next,
          CursorOp.getGoal]
        (Plan.build [some 7, none, some 9]) = .ok p :=
  (Plan_content_immutable_under_cursor (Plan.build [some 7, none, some 9])
    [CursorOp.next, CursorOp.getCurrent, CursorOp.hasNext, CursorOp.next,
      CursorOp.getGoal]).2 (by decide)

/-- C16: a plan just constructed has no next node, `GetCurrent()` and
`GetGoal()` return `nullptr`, and after `Reset()` it still has no next node. -/
theorem Plan_new_is_exhausted_and_empty :
    Plan.ctor.HasNext = false ∧ Plan.ctor.GetCurrent = .ok none ∧ Plan.ctor.GetGoal = none ∧
      Plan.ctor.Reset.HasNext = false :=
  ⟨rfl, rfl, rfl, rfl⟩

/-- C15 fails as stated: on the plan built from the single node `nullptr`,
after `Reset()` and no `Next()` call, `HasNext()` is true and `GetCurrent()`
returns `nullptr`, so `GetCurrent()` returning null does not imply that
`HasNext()` is false. -/
theorem Plan_GetCurrent_null_while_HasNext :
    (Plan.build [none]).HasNext = true ∧ (Plan.build [none]).GetCurrent = .ok none ∧
      ¬ ((Plan.build [none]).GetCurrent = .ok none ↔ (Plan.build [none]).HasNext = false) := by
  refine ⟨rfl, rfl, ?_⟩
  intro h
  have h1 : (Plan.build [none]).HasNext = false := h.mp rfl
  exact absurd h1 (by decide)

/-- C15, amended: on a plan after `Reset()` and `k ≤ N` calls of `Next()`,
`GetCurrent()` returns `nullptr` whenever `HasNext()` is false; when
`HasNext()` is true it returns the node in place `k` (counted from 0), which is
the node the following `Next()` returns; on a path whose nodes are all
non-null, `GetCurrent()` returns `nullptr` exactly when `HasNext()` is false;
and any number of `GetCurrent()` calls leaves the plan, hence what `HasNext()`
and `Next()` return, as it was. -/
theorem Plan_GetCurrent_agrees_with_cursor (p0 : Plan) (k : Nat)
    (hk : k ≤ p0.m_Path.length) :
    ∃ p, Plan.NextN k p0.Reset = .ok (p0.m_Path.take k, p) ∧
      (p.HasNext = false → p.GetCurrent = .ok none) ∧
      (p.HasNext = true → ∃ n p1,
        p0.m_Path[k]? = some n ∧ p.GetCurrent = .ok n ∧ p.Next = .ok (n, p1)) ∧
      ((∀ n ∈ p0.m_Path, n ≠ none) → (p.GetCurrent = .ok none ↔ p.HasNext = false)) ∧
      ∀ m, Plan.applyOps (List.replicate m CursorOp.getCurrent) p = .ok p := by
  refine ⟨{ m_Path := p0.m_Path, m_Iterator := k }, ?_, ?_, ?_, ?_, ?_⟩
  · have := Plan.NextN_run p0.m_Path k 0 (by omega)
    simpa [Plan.Reset] using this
  · intro h
    have hkl : k = p0.m_Path.length := by
      simpa [Plan.HasNext] using h
    simp [Plan.GetCurrent, hkl]
  · intro h
    have hne : k ≠ p0.m_Path.length := by
      simpa [Plan.HasNext] using h
    have hlt : k < p0.m_Path.length := by omega
    have hg : p0.m_Path[k]? = some p0.m_Path[k] := List.getElem?_eq_getElem hlt
    refine ⟨p0.m_Path[k], _, hg, ?_, Plan.Next_of_get p0.m_Path k _ hg⟩
    simp [Plan.GetCurrent, Plan.deref, hne, hg]
  · intro hall
    constructor
    · intro hcur
      by_contra hn
      have hne : k ≠ p0.m_Path.length := by
        simpa [Plan.HasNext] using hn
      have hlt : k < p0.m_Path.length := by omega
      have hg : p0.m_Path[k]? = some p0.m_Path[k] := List.getElem?_eq_getElem hlt
      have hc : Plan.GetCurrent { m_Path := p0.m_Path, m_Iterator := k } = .ok p0.m_Path[k] := by
        simp [Plan.GetCurrent, Plan.deref, hne, hg]
      rw [hc] at hcur
      have hnone : p0.m_Path[k] = none := by
        injection hcur
      exact hall _ (List.getElem_mem hlt) hnone
    · intro h
      have hkl : k = p0.m_Path.length := by
        simpa [Plan.HasNext] using h
      simp [Plan.GetCurrent, hkl]
  · intro m
    obtain ⟨n, hn⟩ := Plan.GetCurrent_of_le p0.m_Path k hk
    induction m with
    | zero => rfl
    | succ m ih =>
      simp only [List.replicate_succ, Plan.applyOps, Plan.applyOp, hn]
      exact ih

/-- Worked instance of C15 on the path `[7, 9]` after one `Next()`: the cursor
has a next node, and `GetCurrent()` returns the second node, as the following
`Next()` does. -/
theorem Plan_GetCurrent_agrees_with_cursor_witness :
    ∃ p, Plan.NextN 1 (Plan.build [some 7, some 9]).Reset
        = .ok ((Plan.build [some 7, some 9]).m_Path.take 1, p) ∧
      (p.HasNext = false → p.GetCurrent = .ok none) ∧
      (p.HasNext = true → ∃ n p1,
        (Plan.build [some 7, some 9]).m_Path[1]? = some n ∧ p.GetCurrent = .ok n ∧
          p.Next = .ok (n, p1)) ∧
      ((∀ n ∈ (Plan.build [some 7, some 9]).m_Path, n ≠ none) →
        (p.GetCurrent = .ok none ↔ p.HasNext = false)) ∧
      ∀ m, Plan.applyOps (List.replicate m CursorOp.getCurrent) p = .ok p :=
  Plan_GetCurrent_agrees_with_cursor (Plan.build [some 7, some 9]) 1 (by decide)

/-! ## PriorityQueue: ties, stale order, contents -/

/-- C12: the planning nodes at the addresses 1 and 6 have the same fitness;
pushing 1 and then 6 onto a new queue puts 6 in front, and `Pop()` returns 6,
the node pushed later, leaving 1. -/
theorem PriorityQueue_tie_pops_later_push_first :
    PlanningNode.GetFitnessCost exampleMemory 1 = PlanningNode.GetFitnessCost exampleMemory 6 ∧
      PriorityQueue.Push (PlanningNodeComparator exampleMemory)
          (PriorityQueue.Push (PlanningNodeComparator exampleMemory) PriorityQueue.ctor 1) 6
        = { m_Container := [6, 1] } ∧
      PriorityQueue.Pop (PlanningNodeComparator exampleMemory) { m_Container := [6, 1] }
        = .ok (6, { m_Container := [1] }) :=
  ⟨rfl, rfl, rfl⟩

/-- C13: in `staleMemory`, pushing the planning nodes 1 (fitness 5) and 2
(fitness 10) gives the container `[1, 2]`. `SetPrevious` with the start node 3
then lowers the fitness of the queued node 2 from 10 to 2. With no `Update()`,
`Empty()` answers false and `Pop()` succeeds and returns node 1, of fitness 5,
strictly more than the fitness 2 of node 2 still in the queue; no call reports
a fault. After `Update()` the same `Pop()` returns node 2. -/
theorem PriorityQueue_stale_order_without_Update :
    runOps (PlanningNodeComparator staleMemory) [.push 1, .push 2] PriorityQueue.ctor
        = .ok ([], { m_Container := [1, 2] }) ∧
      PlanningNode.GetFitnessCost staleMemory 2 = 10 ∧
      PlanningNode.GetFitnessCost staleMemoryAfter 2 = 2 ∧
      PlanningNode.GetFitnessCost staleMemoryAfter 1 = 5 ∧
      PriorityQueue.Empty ({ m_Container := [1, 2] } : PriorityQueue Nat) = false ∧
      PriorityQueue.Pop (PlanningNodeComparator staleMemoryAfter) { m_Container := [1, 2] }
        = .ok (1, { m_Container := [2] }) ∧
      PlanningNode.GetFitnessCost staleMemoryAfter 2
        < PlanningNode.GetFitnessCost staleMemoryAfter 1 ∧
      PriorityQueue.Pop (PlanningNodeComparator staleMemoryAfter)
          (PriorityQueue.Update (PlanningNodeComparator staleMemoryAfter)
            { m_Container := [1, 2] })
        = .ok (2, { m_Container := [1] }) :=
  ⟨rfl, rfl, rfl, rfl, rfl, rfl, by decide, rfl⟩

section ContentsTheory

variable {T : Type}

lemma pop_heap_perm (comp : T → T → Bool) (l : List T) : (pop_heap comp l).Perm l := by
  unfold pop_heap
  split
  · exact List.Perm.refl _
  · rename_i hn
    split
    · rename_i a b ha hb
      exact (siftDown_perm comp _ _ _ 0).trans
        (perm_exchange l 0 (l.length - 1) a b ha hb (by omega))
    · exact List.Perm.refl _

lemma pop_heap_getLast? (comp : T → T → Bool) (x : T) (rest : List T) :
    (pop_heap comp (x :: rest)).getLast? = some x := by
  have hlen : (pop_heap comp (x :: rest)).length = (x :: rest).length :=
    (pop_heap_perm comp (x :: rest)).length_eq
  rw [List.getLast?_eq_getElem?, hlen]
  unfold pop_heap
  by_cases hn : (x :: rest).length ≤ 1
  · rw [if_pos hn]
    have hr : rest = [] := by
      cases rest with
      | nil => rfl
      | cons y ys => simp at hn
    subst hr
    rfl
  · rw [if_neg hn]
    generalize hl : x :: rest = l at hn ⊢
    have hll : l.length - 1 < l.length := by omega
    have hg0 : l[0]? = some x := by rw [← hl]; simp
    have hgn : l[l.length - 1]? = some l[l.length - 1] := List.getElem?_eq_getElem hll
    rw [hg0, hgn]
    simp only
    rw [siftDown_getElem?_of_ge comp (l.length - 1) (l.length - 1) _ 0 (l.length - 1)
      (le_refl _), getElem?_exchange l 0 (l.length - 1) x l[l.length - 1] hg0 hgn]
    simp

lemma Pop_perm (comp : T → T → Bool) (q : PriorityQueue T) (item : T) (q1 : PriorityQueue T)
    (h : q.Pop comp = .ok (item, q1)) : (item :: q1.m_Container).Perm q.m_Container := by
  obtain ⟨rest, hq, hq1⟩ := Pop_ok_inv comp q item q1 h
  rw [hq, hq1]
  have hsplit := List.dropLast_append_getLast? item (pop_heap_getLast? comp item rest)
  have h1 : (item :: (pop_heap comp (item :: rest)).dropLast).Perm
      ((pop_heap comp (item :: rest)).dropLast ++ [item]) :=
    (List.perm_append_singleton item _).symm
  rw [hsplit] at h1
  exact h1.trans (pop_heap_perm comp (item :: rest))

lemma runOps_perm (comp : T → T → Bool) (ops : List (QueueOp T)) (q : PriorityQueue T)
    (outs : List T) (q1 : PriorityQueue T) (hr : runOps comp ops q = .ok (outs, q1)) :
    (outs ++ q1.m_Container).Perm (q.m_Container ++ pushedItems ops) ∧
      outs.length = ops.countP QueueOp.isPop ∧
      (pushedItems ops).length = ops.countP QueueOp.isPush := by
  induction ops generalizing q outs with
  | nil =>
    simp only [runOps, Except.ok.injEq, Prod.mk.injEq] at hr
    obtain ⟨h1, h2⟩ := hr
    subst h1
    subst h2
    simp [pushedItems]
  | cons op ops ih =>
    cases op with
    | push item =>
      simp only [runOps] at hr
      obtain ⟨h1, h2, h3⟩ := ih _ outs hr
      refine ⟨?_, ?_, ?_⟩
      · refine h1.trans ?_
        simp only [pushedItems]
        exact ((Push_perm comp q item).append_right _).trans List.perm_middle.symm
      · simp [List.countP_cons, QueueOp.isPop, h2]
      · simp [List.countP_cons, QueueOp.isPush, pushedItems, h3]
    | pop =>
      simp only [runOps] at hr
      cases hp : q.Pop comp with
      | error e => simp [hp] at hr
      | ok res =>
        obtain ⟨item, q2⟩ := res
        simp only [hp] at hr
        cases hrun : runOps comp ops q2 with
        | error e => simp [hrun] at hr
        | ok res2 =>
          obtain ⟨items, q3⟩ := res2
          simp only [hrun, Except.ok.injEq, Prod.mk.injEq] at hr
          obtain ⟨ho, hq⟩ := hr
          subst ho
          subst hq
          obtain ⟨h1, h2, h3⟩ := ih q2 items hrun
          refine ⟨?_, ?_, ?_⟩
          · simp only [pushedItems, List.cons_append]
            exact (h1.cons item).trans ((Pop_perm comp q item q2 hp).append_right _)
          · simp [List.countP_cons, QueueOp.isPop, h2]
          · simp [List.countP_cons, QueueOp.isPush, pushedItems, h3]

end ContentsTheory

/-- C14: the container of a queue tracks a reference multiset, whatever the
comparator answers. `Push(x)` adds one occurrence of `x`; `Pop()` succeeds on a
non-empty queue, returns an item that was in the queue and removes one
occurrence of it; `Update()` leaves the multiset as it is; `Empty()` is true
exactly when the multiset is empty, so a new queue is empty and a queue is
non-empty right after a `Push`. For a run of calls on a new queue, the items
popped together with the items left are the items pushed, and after as many
`Pop` as `Push` calls the queue is empty again. -/
theorem PriorityQueue_contents_track_multiset {T : Type} (comp : T → T → Bool)
    (q : PriorityQueue T) (x : T) :
    (q.Push comp x).contents = x ::ₘ q.contents ∧
      (q.Empty = false → ∃ item q1, q.Pop comp = .ok (item, q1)) ∧
      (∀ item q1, q.Pop comp = .ok (item, q1) →
        item ∈ q.contents ∧ q.contents = item ::ₘ q1.contents) ∧
      (q.Update comp).contents = q.contents ∧
      (q.Empty = true ↔ q.contents = 0) ∧
      (PriorityQueue.ctor : PriorityQueue T).Empty = true ∧
      (q.Push comp x).Empty = false ∧
      ∀ ops outs q1, runOps comp ops PriorityQueue.ctor = .ok (outs, q1) →
        Multiset.ofList outs + q1.contents = Multiset.ofList (pushedItems ops) ∧
          (ops.countP QueueOp.isPush = ops.countP QueueOp.isPop → q1.Empty = true) := by
  refine ⟨?_, ?_, ?_, ?_, ?_, rfl, ?_, ?_⟩
  · exact Multiset.coe_eq_coe.mpr (Push_perm comp q x)
  · intro he
    cases hcont : q.m_Container with
    | nil => simp [PriorityQueue.Empty, hcont] at he
    | cons y rest => exact ⟨y, _, Pop_cons comp q y rest hcont⟩
  · intro item q1 hp
    have hperm := Pop_perm comp q item q1 hp
    have heq : q.contents = item ::ₘ q1.contents :=
      Multiset.coe_eq_coe.mpr hperm.symm
    refine ⟨?_, heq⟩
    rw [heq]
    exact Multiset.mem_cons_self _ _
  · exact Multiset.coe_eq_coe.mpr (Update_perm comp q)
  · cases hcont : q.m_Container with
    | nil => simp [PriorityQueue.Empty, PriorityQueue.contents, hcont]
    | cons y rest => simp [PriorityQueue.Empty, PriorityQueue.contents, hcont]
  · have hlen := (Push_perm comp q x).length_eq
    cases hcont : (q.Push comp x).m_Container with
    | nil => simp [hcont] at hlen
    | cons y rest => simp [PriorityQueue.Empty, hcont]
  · intro ops outs q1 hr
    obtain ⟨h1, h2, h3⟩ := runOps_perm comp ops PriorityQueue.ctor outs q1 hr
    constructor
    · have h4 : (outs ++ q1.m_Container).Perm (pushedItems ops) := by
        simpa [PriorityQueue.ctor] using h1
      have := Multiset.coe_eq_coe.mpr h4
      rw [← this]
      rfl
    · intro hcount
      have hlen := h1.length_eq
      simp only [List.length_append, PriorityQueue.ctor, List.length_nil, zero_add] at hlen
      have h0 : q1.m_Container.length = 0 := by omega
      have hnil : q1.m_Container = [] := List.length_eq_zero.mp h0
      simp [PriorityQueue.Empty, hnil]

/-- Worked instance of C14: `Pop()` on the container `[3, 4, 1, 2]` returns 3,
which was in the queue, and leaves the other three items. -/
theorem PriorityQueue_contents_track_multiset_witness :
    (3 : Nat) ∈ ({ m_Container := [3, 4, 1, 2] } : PriorityQueue Nat).contents ∧
      ({ m_Container := [3, 4, 1, 2] } : PriorityQueue Nat).contents
        = 3 ::ₘ ({ m_Container := [1, 4, 2] } : PriorityQueue Nat).contents :=
  (PriorityQueue_contents_track_multiset (PlanningNodeComparator exampleMemory)
    { m_Container := [3, 4, 1, 2] } 0).2.2.1 3 { m_Container := [1, 4, 2] } rfl

end ai.path

/-! ## GameClient: tick catch-up -/

namespace GameClient

lemma TickDelay_eq : TickDelay = 50 := by decide

lemma updateLoop_eq (bound : Int) (fuel : Nat) (i : Int) (calls : Nat) :
    updateLoop bound fuel i calls = calls + min fuel (bound - i).toNat := by
  induction fuel generalizing i calls with
  | zero => simp [updateLoop]
  | succ fuel ih =>
    unfold updateLoop
    split
    · rw [ih]
      omega
    · omega

/-- C17: with `TickDelay = 50` and `MaximumUpdates = 3`, a pass of the loop of
`run` with `time < lastUpdate + 50` makes no `Update()` call and leaves
`lastUpdate` as it is. A pass with `time ≥ lastUpdate + 50` advances
`lastUpdate` by a positive whole multiple of 50 to a value at most `time` and
more than `time - 50`, and makes `min((time - lastUpdate) / 50, 3)` calls of
`Update()`, at least 1 and at most 3; the truncating division of C++ and the
flooring one agree there. -/
theorem runIteration_tick_catch_up (lastUpdate time : Int) :
    TickDelay = 50 ∧ MaximumUpdates = 3 ∧
      (time < lastUpdate + 50 → runIteration lastUpdate time = (lastUpdate, 0)) ∧
      (lastUpdate + 50 ≤ time →
        (∃ m : Int, 0 < m ∧ (runIteration lastUpdate time).1 = lastUpdate + 50 * m) ∧
          (runIteration lastUpdate time).1 ≤ time ∧
          time < (runIteration lastUpdate time).1 + 50 ∧
          ((runIteration lastUpdate time).2 : Int)
            = min (Int.tdiv (time - lastUpdate) 50) 3 ∧
          Int.tdiv (time - lastUpdate) 50 = (time - lastUpdate) / 50 ∧
          1 ≤ (runIteration lastUpdate time).2 ∧ (runIteration lastUpdate time).2 ≤ 3) := by
  refine ⟨TickDelay_eq, rfl, ?_, ?_⟩
  · intro h
    simp [runIteration, TickDelay_eq, h]
  · intro h
    have hnot : ¬ time < lastUpdate + 50 := by omega
    have hdiv : Int.tdiv (time - lastUpdate) 50 = (time - lastUpdate) / 50 :=
      Int.tdiv_eq_ediv (by omega) (by omega)
    have hrun : runIteration lastUpdate time
        = (lastUpdate + 50 * ((time - lastUpdate) / 50),
            (min ((time - lastUpdate) / 50) 3).toNat) := by
      simp only [runIteration, TickDelay_eq, MaximumUpdates, if_neg hnot, hdiv, updateLoop_eq]
      congr 1
      omega
    rw [hrun, hdiv]
    refine ⟨⟨(time - lastUpdate) / 50, by omega, rfl⟩, ?_, ?_, ?_, rfl, ?_, ?_⟩
    · simp only
      omega
    · simp only
      omega
    · simp only
      omega
    · simp only
      omega
    · simp only
      omega

/-- Worked instance of C17: with `lastUpdate = 1000` and `time = 1149` the pass
moves `lastUpdate` to a value at most 1149. -/
theorem runIteration_tick_catch_up_witness :
    (runIteration 1000 1149).1 ≤ 1149 ∧ runIteration 1000 1049 = (1000, 0) :=
  ⟨((runIteration_tick_catch_up 1000 1149).2.2.2 (by decide)).2.1,
    (runIteration_tick_catch_up 1000 1049).2.2.1 (by decide)⟩

end GameClient

/-! ## PriorityQueue: fitness values that are NaN -/

namespace ai.path

end ai.path
